import Mathlib

/-!
Verification of the real-time file-workspace subsystem of the Fre web IDE:
the HTTP CRUD file routes, the chokidar-based change watcher, the WebSocket
fan-out hub, and the browser-side reconciler (React `FileProvider`).

The JavaScript source is embedded shallowly: every route handler, hub
callback and reconciler operation becomes an executable Lean function over
explicit state. Node/browser library primitives that the source calls
(`path.join`, `String.prototype.startsWith`, the chokidar ignore regex,
`Array.prototype.sort` with a comparator, `String.prototype.localeCompare`)
are modelled from their documented semantics, as noted in their doc comments.
JavaScript truthiness, `||` chains and negative array indexing are modelled
explicitly wherever the source relies on them.
-/

namespace Fre

/-! ## Path model (Node `path.join` / `startsWith`, POSIX)

The file routes (`server/routes/files.js`) resolve every client-supplied
path with `path.join(WORKSPACE_DIR, filePath)` and then guard storage access
with `fullPath.startsWith(WORKSPACE_DIR)`. We model POSIX `path.join` on an
absolute first argument: concatenate with `/`, split into components, then
resolve `.` and `..` (a `..` above the root is dropped, as `path.normalize`
does for absolute paths). -/

/-- Split a character list on a separator character (like `String.split`,
kept at the character level so that the kernel evaluates it cheaply). -/
def splitChar (sep : Char) : List Char → List (List Char)
| [] => [[]]
| c :: rest =>
  match splitChar sep rest with
  | [] => [[]]
  | g :: gs => if c = sep then [] :: g :: gs else (c :: g) :: gs

/-- One step of `path.normalize` component resolution for an absolute path:
empty components and `.` vanish, `..` removes the previous component. -/
def normStep (acc : List (List Char)) (comp : List Char) : List (List Char) :=
if comp = [] ∨ comp = ['.'] then acc
else if comp = ['.', '.'] then acc.dropLast
else acc ++ [comp]

/-- Model of Node `path.join a b` for an absolute `a` (the workspace root is
always absolute in the source): join with `/` and normalize. -/
def pathJoin (a b : String) : String :=
⟨'/' :: (List.intercalate ['/'] (((splitChar '/' (a.data ++ '/' :: b.data))).foldl normStep []))⟩

/-- Model of JavaScript `full.startsWith(pre)`: string prefix test. -/
def jsStartsWith (full pre : String) : Bool :=
pre.data.isPrefixOf full.data

/-- Spec-side notion used to judge the containment claim: a resolved path
lies within the workspace root iff it is the root itself or extends the root
by a path separator (so a sibling directory such as `workspace2` is outside). -/
def withinRoot (root p : String) : Bool :=
p = root || (root ++ "/").data.isPrefixOf p.data

/-- Model constant for `WORKSPACE_DIR = path.join(__dirname, '../../workspace')`
in `server/routes/files.js` (the server installed at `/srv/server`). -/
def WORKSPACE_DIR : String := "/srv/server/workspace"

/-- Outcome of a file route up to its first storage access: the handlers
first validate presence of the parameters (JavaScript falsiness, so an empty
string is also rejected as a 400), then resolve with `path.join`, then run
the `startsWith` guard, and only then touch storage. `storage paths` records
that the handler proceeded to filesystem calls on the resolved paths. -/
inductive RouteResult where
| badRequest
| accessDenied
| storage (paths : List String)
deriving DecidableEq

/-- Route `GET /api/files/read` up to its first storage access. -/
def readRoute (filePath : String) : RouteResult :=
if filePath = "" then .badRequest
else
  let fullPath := pathJoin WORKSPACE_DIR filePath
  if !(jsStartsWith fullPath WORKSPACE_DIR) then .accessDenied
  else .storage [fullPath]

/-- Route `POST /api/files/write` up to its first storage access (`content` is
`none` when the field is absent, mirroring `content === undefined`). -/
def writeRoute (filePath : String) (content : Option String) : RouteResult :=
if filePath = "" || content = none then .badRequest
else
  let fullPath := pathJoin WORKSPACE_DIR filePath
  if !(jsStartsWith fullPath WORKSPACE_DIR) then .accessDenied
  else .storage [fullPath]

/-- Route `POST /api/files/create` up to its first storage access. -/
def createRoute (filePath ty : String) : RouteResult :=
if filePath = "" || ty = "" then .badRequest
else
  let fullPath := pathJoin WORKSPACE_DIR filePath
  if !(jsStartsWith fullPath WORKSPACE_DIR) then .accessDenied
  else .storage [fullPath]

/-- Route `DELETE /api/files/delete` up to its first storage access. -/
def deleteRoute (filePath : String) : RouteResult :=
if filePath = "" then .badRequest
else
  let fullPath := pathJoin WORKSPACE_DIR filePath
  if !(jsStartsWith fullPath WORKSPACE_DIR) then .accessDenied
  else .storage [fullPath]

/-- Route `POST /api/files/rename` up to its first storage access: both resolved
paths must pass the guard before `fs.rename` runs. -/
def renameRoute (oldPath newPath : String) : RouteResult :=
if oldPath = "" || newPath = "" then .badRequest
else
  let fullOld := pathJoin WORKSPACE_DIR oldPath
  let fullNew := pathJoin WORKSPACE_DIR newPath
  if !(jsStartsWith fullOld WORKSPACE_DIR) || !(jsStartsWith fullNew WORKSPACE_DIR) then .accessDenied
  else .storage [fullOld, fullNew]

/-! ## Wire events

`ChangeEvent` as carried by the `file:added` / `file:changed` / `file:deleted`
broadcast messages. -/

inductive ChangeKind where
| added
| changed
| deleted
deriving DecidableEq

structure ChangeEvent where
kind : ChangeKind
path : String
deriving DecidableEq

/-! ## Workspace tree entries (`buildFileTree` output shape) -/

inductive WorkspaceEntry where
| file (name path : String) (size modified : Nat)
| dir (name path : String) (children : List WorkspaceEntry)

/-- The `name` field of a tree entry. -/
def wname : WorkspaceEntry → String
| .file n _ _ _ => n
| .dir n _ _ => n

/-- Whether a tree entry has `type: 'directory'`. -/
def wisDir : WorkspaceEntry → Bool
| .file _ _ _ _ => false
| .dir _ _ _ => true

/-! ## JavaScript semantics helpers

The reconciler source leans on JavaScript truthiness (`if (fileContents[p])`),
on `a || b || null` chains, and on array indexing that yields `undefined`
out of range (including at negative indices). These are modelled explicitly:
`Option String` stands for a value that may be `undefined`/`null`, and only
a non-empty string is truthy. -/

/-- JavaScript truthiness of a possibly-undefined string: `undefined` and
`""` are falsy, every other string truthy. -/
def jsTruthy : Option String → Bool
| none => false
| some s => s ≠ ""

/-- JavaScript `a || b` on possibly-undefined strings: yields `b` when `a`
is falsy. -/
def jsOr (a b : Option String) : Option String :=
if jsTruthy a then a else b

/-- JavaScript `arr[i]` with an `Int` index: `undefined` out of range
(in particular at every negative index). -/
def jsGet (l : List String) (i : Int) : Option String :=
if 0 ≤ i then l[i.toNat]? else none

/-- JavaScript `arr.indexOf(x)`: first index, `-1` when absent. -/
def jsIndexOf (l : List String) (p : String) : Int :=
match l.findIdx? (· == p) with
| some n => (n : Int)
| none => -1

/-! ## JavaScript object as association list

`fileContents` is a plain object keyed by path. A property update keeps the
property's position, a fresh key is appended, `delete` removes the key. -/

def lookupC (m : List (String × String)) (k : String) : Option String :=
(m.find? (fun e => e.1 == k)).map (·.2)

def insertC (m : List (String × String)) (k v : String) : List (String × String) :=
if m.any (fun e => e.1 == k) then m.map (fun e => if e.1 == k then (k, v) else e)
else m ++ [(k, v)]

def eraseC (m : List (String × String)) (k : String) : List (String × String) :=
m.filter (fun e => e.1 != k)

/-! ## Client reconciler (`FileContext.jsx`)

`ReconcilerState` mirrors the four state hooks of `FileProvider`. The CRUD
operations (`openFile`, `closeFile`, `saveFile`, `createFile`, `deleteFile`,
`renameFile`, `loadFile`) are plain functions re-created on every render, so
when one of them is invoked its closure holds the state current at call
time: identifiers read inside such an operation (`openFiles`, `activeFile`,
`fileContents`) denote that pre-operation state, while `setX(prev => ...)`
functional updates read the value already updated earlier in the same
operation. The `websocket.onmessage` handler is different: it is installed
once, inside a `useEffect` with an empty dependency array, so its closure
permanently captures the state of the render it was created in — the mount
render — and never sees later state; it is therefore embedded with the
captured `fileContents` as an explicit parameter. The server collaborators
(`GET /api/files/read`, `GET /api/files/tree`) are abstracted as `ServerApi`:
`readFile` gives the content answered by a successful read (`none` for a
failed request, which the handlers only log), `tree` the current tree. -/

structure ServerApi where
readFile : String → Option String
tree : List WorkspaceEntry

structure ReconcilerState where
fileTree : List WorkspaceEntry
openFiles : List String
activeFile : Option String
fileContents : List (String × String)

/-- Operation `loadFile`: fetch a path's content and overwrite the cache entry; a
failed request leaves the state unchanged (the rejection is logged/rethrown). -/
def loadFile (srv : ServerApi) (p : String) (s : ReconcilerState) : ReconcilerState :=
match srv.readFile p with
| some c => { s with fileContents := insertC s.fileContents p c }
| none => s

/-- Operation `openFile`: append to `openFiles` when absent, activate, fetch content
unless the cached entry is truthy (`if (!fileContents[filePath])`). -/
def openFile (srv : ServerApi) (p : String) (s : ReconcilerState) : ReconcilerState :=
let s1 := if s.openFiles.contains p then s else { s with openFiles := s.openFiles ++ [p] }
let s2 := { s1 with activeFile := some p }
if jsTruthy (lookupC s.fileContents p) then s2 else loadFile srv p s2

/-- Operation `closeFile`: drop the path from `openFiles`; when it was active, the new
active file is `openFiles[index-1] || openFiles[index+1] || null` computed
over the pre-close list. -/
def closeFile (p : String) (s : ReconcilerState) : ReconcilerState :=
let files := s.openFiles.filter (fun f => f ≠ p)
if s.activeFile = some p then
  let i := jsIndexOf s.openFiles p
  { s with openFiles := files,
           activeFile := jsOr (jsGet s.openFiles (i - 1)) (jsOr (jsGet s.openFiles (i + 1)) none) }
else { s with openFiles := files }

/-- Operation `saveFile`: write through, then echo the content into the local cache. -/
def saveFile (p c : String) (s : ReconcilerState) : ReconcilerState :=
{ s with fileContents := insertC s.fileContents p c }

/-- Operation `createFile`: write through, then refresh the tree wholesale. -/
def createFile (srv : ServerApi) (s : ReconcilerState) : ReconcilerState :=
{ s with fileTree := srv.tree }

/-- Operation `deleteFile`: evict the path from `openFiles` and `fileContents`; when it
was active, reassign `activeFile` to `openFiles[0] || null` — where
`openFiles` is the pre-delete render value, as in the source — then refresh
the tree. -/
def deleteFile (srv : ServerApi) (p : String) (s : ReconcilerState) : ReconcilerState :=
let files := s.openFiles.filter (fun f => f ≠ p)
let contents := eraseC s.fileContents p
let active := if s.activeFile = some p then jsOr (jsGet s.openFiles 0) none else s.activeFile
{ fileTree := srv.tree, openFiles := files, activeFile := active, fileContents := contents }

/-- Operation `renameFile`: remap `openFiles`; move the cache entry only when the old
entry is truthy (`if (fileContents[oldPath])`), by inserting under the new
key and then deleting the old key; remap `activeFile`; refresh the tree. -/
def renameFile (srv : ServerApi) (oldP newP : String) (s : ReconcilerState) : ReconcilerState :=
let files := s.openFiles.map (fun f => if f = oldP then newP else f)
let contents :=
  if jsTruthy (lookupC s.fileContents oldP) then
    eraseC (insertC s.fileContents newP ((lookupC s.fileContents oldP).getD "")) oldP
  else s.fileContents
let active := if s.activeFile = some oldP then some newP else s.activeFile
{ fileTree := srv.tree, openFiles := files, activeFile := active, fileContents := contents }

/-- Handler `websocket.onmessage`, parametrized by the `fileContents` its
closure captured when it was installed (`mountContents`): on `file:changed`
the captured map — not the current state — is consulted, and the path is
reloaded only when its entry there is truthy (`if (fileContents[data.path])`;
`loadFile` itself updates through `setFileContents(prev => ...)`, so the
reload, when taken, acts on the current state); on `file:added` and
`file:deleted` the whole tree is refreshed (`loadFileTree` reads no captured
state). -/
def handleWsMessage (srv : ServerApi) (mountContents : List (String × String))
    (ev : ChangeEvent) (s : ReconcilerState) : ReconcilerState :=
match ev.kind with
| .changed => if jsTruthy (lookupC mountContents ev.path) then loadFile srv ev.path s else s
| .added => { s with fileTree := srv.tree }
| .deleted => { s with fileTree := srv.tree }

/-- The `fileContents` value the `onmessage` closure actually captured: the
installing `useEffect` has an empty dependency array and runs exactly once,
after the mount render, where `fileContents` is still the initial
`useState({})` — the empty object. -/
def mountFileContents : List (String × String) := []

/-- The `onmessage` handler as it runs in the program: the mount-only
closure reads `mountFileContents` forever. -/
def installedWsHandler (srv : ServerApi) (ev : ChangeEvent) (s : ReconcilerState) : ReconcilerState :=
handleWsMessage srv mountFileContents ev s

/-! ## Fan-out hub (`websocket.js`)

A session is one WebSocket connection: `readyState` follows the ws library
(`1` = OPEN), `inbox` records the frames successfully handed to its
transport. The hub state is the `clients` set. The ws library reports write
failures and disconnects asynchronously through the `'error'` / `'close'`
events, whose source handlers both run `clients.delete(ws)`; `send` on a
session that passed the `readyState === 1` guard does not throw into the
broadcast loop. -/

structure Session where
id : Nat
readyState : Nat
inbox : List String
deriving DecidableEq

/-- Function `broadcast(data)`: the already-serialized frame is offered to every
registered client, delivered exactly to those whose `readyState` is OPEN;
the others are skipped without any effect on the rest of the loop. -/
def broadcast (msg : String) (clients : List Session) : List Session :=
clients.map (fun c => if c.readyState == 1 then { c with inbox := c.inbox ++ [msg] } else c)

/-- The `ws.on(close)` handler: `clients.delete(ws)`. -/
def onSocketClose (sid : Nat) (clients : List Session) : List Session :=
clients.filter (fun c => c.id ≠ sid)

/-- The `ws.on(error)` handler (write failure surfaces here):
`clients.delete(ws)`. -/
def onSocketError (sid : Nat) (clients : List Session) : List Session :=
clients.filter (fun c => c.id ≠ sid)

/-! ## Inbound control protocol (`ws.on('message')`) -/

/-- A parsed inbound frame: `other t` is any recognized-format message whose
`type` is neither `ping` nor `subscribe` (including a missing `type`);
`subscribe` carries `data.channel`, which may be absent. -/
inductive InboundMsg where
| ping
| subscribe (channel : Option String)
| other (t : Option String)
deriving DecidableEq

/-- A server-to-client control frame. -/
inductive ServerMsg where
| connected (message : String) (timestamp : Nat)
| pong (timestamp : Nat)
| subscribed (channel : Option String)
deriving DecidableEq

/-- The `ws.on(message)` handler: `JSON.parse` inside `try` (a frame that
fails to parse is `none`: the catch block only logs), then the `switch` on
`data.type`. Returns the replies sent to this session and the client set,
which the handler never touches. -/
def handleMessage (now : Nat) (parsed : Option InboundMsg) (clients : List Session) :
    List ServerMsg × List Session :=
match parsed with
| none => ([], clients)
| some .ping => ([.pong now], clients)
| some (.subscribe ch) => ([.subscribed ch], clients)
| some (.other _) => ([], clients)

/-! ## Change watcher (`chokidar.watch` wiring)

Chokidar is configured with `ignoreInitial: true` and
`ignored: /(^|[\/\\])\../`, and the `add`/`change`/`unlink` handlers
broadcast one `file:added`/`file:changed`/`file:deleted` event each, with the
path relativized to the workspace root. We model the underlying filesystem
notifications as `RawNote`s (kind, path relative to the root, and whether
chokidar classifies it as part of the initial scan), and the ignore regex as
a three-state character automaton over the full watched path
`root ++ "/" ++ path`: it matches where a `.` that starts the string or
follows a `/` or `\` is itself followed by a character other than a line
terminator (the regex `.`). -/

inductive RawKind where
| add
| change
| unlink
deriving DecidableEq

structure RawNote where
kind : RawKind
path : String
initial : Bool
deriving DecidableEq

/-- The chokidar handler kinds map to event kinds one-for-one. -/
def mapKind : RawKind → ChangeKind
| .add => .added
| .change => .changed
| .unlink => .deleted

/-- JavaScript regex line terminators, which `.` does not match. -/
def isLineTerm (c : Char) : Bool :=
c = '\n' || c = '\r' || c = '\u2028' || c = '\u2029'

/-- States of the ignore-regex automaton: at a component boundary, just past
a boundary `.`, or in the middle of a component. -/
inductive ReState where
| q0
| qdot
| qn
deriving DecidableEq

/-- Automaton transition: a separator returns to the boundary state, a `.`
at the boundary arms the match, anything else is component interior. -/
def reNext (s : ReState) (c : Char) : ReState :=
if c = '/' || c = '\\' then .q0
else if s = .q0 ∧ c = '.' then .qdot
else .qn

/-- The regex matches at this character iff a boundary `.` was just read and
the character is not a line terminator. -/
def reMatchChar (s : ReState) (c : Char) : Bool :=
s = .qdot && !(isLineTerm c)

/-- Run the automaton, latching any match. -/
def reRun (s : ReState) : List Char → Bool
| [] => false
| c :: cs => reMatchChar s c || reRun (reNext s c) cs

/-- State of the automaton after consuming a character list. -/
def reEnd (s : ReState) (l : List Char) : ReState :=
l.foldl reNext s

/-- Model of the test `/(^|[\/\\])\../.test(s)` used as chokidar's `ignored`
option. -/
def hiddenRe (s : String) : Bool :=
reRun .q0 s.data

/-- Whether the watcher pipeline lets a notification through: not part of
the initial scan (`ignoreInitial: true`) and not matched by the ignore
regex on the full watched path. -/
def watcherAccepts (root : String) (n : RawNote) : Bool :=
!n.initial && !hiddenRe (root ++ "/" ++ n.path)

/-- The stream of `ChangeEvent`s the watcher wiring emits for a stream of
filesystem notifications: one event of the corresponding kind per accepted
notification. -/
def watcherEvents (root : String) (notes : List RawNote) : List ChangeEvent :=
(notes.filter (watcherAccepts root)).map (fun n => ⟨mapKind n.kind, n.path⟩)

/-- The final component of a relative path, at the character level. -/
def baseNameChars (l : List Char) : List Char :=
(l.reverse.takeWhile (fun c => c ≠ '/')).reverse

/-- The entry name denoted by a relative path (its final `/`-component). -/
def baseNameStr (s : String) : String :=
⟨baseNameChars s.data⟩

/-- A name the ignore regex can see as hidden: a leading `.` followed by at
least one character that is not a line terminator. -/
def dotLeadingName (s : String) : Bool :=
match s.data with
| '.' :: c :: _ => !(isLineTerm c)
| _ => false

/-- Spec-side: a name that begins with `.`. -/
def startsDot (s : String) : Bool :=
match s.data with
| '.' :: _ => true
| _ => false

/-! ## File-tree listing (`buildFileTree`)

Storage is a directory tree; one directory's listing is the `fs.readdir`
order. The handler converts each item (file or directory, recursing into
directories) and then sorts the level with
`tree.sort((a, b) => a.type === b.type ? a.name.localeCompare(b.name) : (a.type === 'directory' ? -1 : 1))`.
`Array.prototype.sort` is a stable comparison sort; since a stable sort's
output is unique for a consistent comparator, it is modelled by a stable
insertion sort over the relation "comparator ≤ 0".

`String.prototype.localeCompare` under the default locale is modelled for
ASCII names: a primary, case-insensitive character pass decides first, and
only fully tied strings are ordered by the tertiary pass that puts lower
case before upper case (so `"a" < "B" < "b"`, unlike code-point order). The
two passes are packed into one sort key, separated by a `0` sentinel below
every character weight. -/

inductive FSEntry where
| file (name : String) (size modified : Nat)
| dir (name : String) (children : List FSEntry)

/-- The name of a raw storage entry. -/
def fsName : FSEntry → String
| .file n _ _ => n
| .dir n _ => n

/-- Primary collation weight: case-folded code point. -/
def charPrimary (c : Char) : Nat :=
c.toLower.toNat + 1

/-- Tertiary collation weight: lower case before upper case. -/
def charTertiary (c : Char) : Nat :=
if c.isUpper then 2 else 1

/-- The packed collation key of a name. -/
def collKey (s : String) : List Nat :=
s.data.map charPrimary ++ 0 :: s.data.map charTertiary

/-- Lexicographic `≤` on weight lists. -/
def natListLe : List Nat → List Nat → Bool
| [], _ => true
| _ :: _, [] => false
| a :: as, b :: bs => if a < b then true else if b < a then false else natListLe as bs

/-- Model of `a.localeCompare(b) <= 0` for ASCII names. -/
def localeLe (a b : String) : Bool :=
natListLe (collKey a) (collKey b)

/-- The sort comparator of `buildFileTree`, as the relation
"`comparator(a, b) <= 0`": directories sort before files, same-type entries
by `localeCompare`. -/
def entryLe (a b : WorkspaceEntry) : Bool :=
match wisDir a, wisDir b with
| true, false => true
| false, true => false
| _, _ => localeLe (wname a) (wname b)

/-- Case-sensitive lexicographic (code point) `≤` on names, the order the
claim words ask for. -/
def codePointLe : List Char → List Char → Bool
| [], _ => true
| _ :: _, [] => false
| a :: as, b :: bs =>
  if a.toNat < b.toNat then true
  else if b.toNat < a.toNat then false
  else codePointLe as bs

/-- Spec-side sibling order as the claim words it: same-type entries by
case-sensitive lexicographic (code point) comparison, directories first. -/
def entryLeSpec (a b : WorkspaceEntry) : Bool :=
match wisDir a, wisDir b with
| true, false => true
| false, true => false
| _, _ => codePointLe (wname a).data (wname b).data

/-- Model of `path.join(basePath, item)` for the relative paths the tree carries:
the top-level call passes `basePath = ''`. -/
def joinRel (basePath name : String) : String :=
if basePath = "" then name else basePath ++ "/" ++ name

/-- The relation `entryLe`, in `Prop` form for `List.insertionSort`. -/
def entryLeR (a b : WorkspaceEntry) : Prop :=
entryLe a b = true

instance : DecidableRel entryLeR := fun a b => by
unfold entryLeR
infer_instance

mutual

/-- Convert one `readdir` item: files keep size and mtime, directories
recurse (each recursive level is itself sorted). -/
def convEntry (basePath : String) : FSEntry → WorkspaceEntry
| .file n sz mt => .file n (joinRel basePath n) sz mt
| .dir n ch => .dir n (joinRel basePath n) (List.insertionSort entryLeR (convList (joinRel basePath n) ch))
termination_by structural e => e

/-- Convert a `readdir` listing in order, before sorting. -/
def convList (basePath : String) : List FSEntry → List WorkspaceEntry
| [] => []
| e :: es => convEntry basePath e :: convList basePath es
termination_by structural l => l

end

/-- Function `buildFileTree(dir, basePath)`: convert the listing, then sort it with
the comparator (stable, hence equal to the stable insertion sort). -/
def buildFileTree (basePath : String) (es : List FSEntry) : List WorkspaceEntry :=
List.insertionSort entryLeR (convList basePath es)

mutual

/-- A tree entry all of whose directory levels are comparator-ordered. -/
def entrySortedB : WorkspaceEntry → Bool
| .file _ _ _ _ => true
| .dir _ _ ch => levelSortedB ch
termination_by structural e => e

/-- A level is ordered when each adjacent pair satisfies the comparator and
every entry is recursively ordered. -/
def levelSortedB : List WorkspaceEntry → Bool
| [] => true
| [e] => entrySortedB e
| a :: b :: rest => entryLe a b && entrySortedB a && levelSortedB (b :: rest)
termination_by structural l => l

end

/-! ## Concrete instances used by counterexamples and witnesses -/

/-- A server whose reads always succeed with fixed content. -/
def stubSrv : ServerApi :=
⟨fun _ => some "stub", []⟩

/-- A server that answers fresh content for every read. -/
def freshSrv : ServerApi :=
⟨fun _ => some "fresh content", []⟩

/-- Reconciler state with a single open file `a`, which is active. -/
def oneOpenState : ReconcilerState :=
⟨[], ["a"], some "a", [("a", "x")]⟩

/-- Reconciler state with `a` and `b` open, `a` active, `c` already cached. -/
def twoOpenState : ReconcilerState :=
⟨[], ["a", "b"], some "a", [("a", "x"), ("b", "y"), ("c", "z")]⟩

/-- Reconciler state whose only cache entry is the empty string under `a`. -/
def emptyCacheState : ReconcilerState :=
⟨[], [], none, [("a", "")]⟩

/-- Reconciler state whose cache holds non-empty (truthy) content for `a`. -/
def truthyCacheState : ReconcilerState :=
⟨[], [], none, [("a", "cached")]⟩

/-- Two registered sessions: session 1 open, session 2 already closed. -/
def demoClients : List Session :=
[⟨1, 1, []⟩, ⟨2, 3, []⟩]

/-! ## Association-list lemmas -/

theorem lookupC_cons_ne (x : String × String) (m : List (String × String)) (k : String)
    (h : x.1 ≠ k) : lookupC (x :: m) k = lookupC m k := by
  simp [lookupC, List.find?_cons, h]

theorem lookupC_cons_self (x : String × String) (m : List (String × String)) (k : String)
    (h : x.1 = k) : lookupC (x :: m) k = some x.2 := by
  simp [lookupC, List.find?_cons, h]

theorem lookupC_map_replace (m : List (String × String)) (k v : String)
    (h : m.any (fun e => e.1 == k) = true) :
    lookupC (m.map (fun e => if e.1 == k then (k, v) else e)) k = some v := by
  induction m with
  | nil => simp at h
  | cons e m ih =>
    by_cases he : e.1 = k
    · rw [List.map_cons, if_pos (by simpa using he), lookupC_cons_self _ _ _ rfl]
    · have h' : (m.any fun e => e.1 == k) = true := by
        rcases (by simpa using h : e.1 = k ∨ (m.any fun e => e.1 == k) = true) with h | h
        · exact absurd h he
        · exact h
      rw [List.map_cons, if_neg (by simpa using he), lookupC_cons_ne _ _ _ he]
      exact ih h'

theorem lookupC_none_of_not_any (m : List (String × String)) (k : String)
    (h : m.any (fun e => e.1 == k) = false) :
    lookupC m k = none := by
  induction m with
  | nil => simp [lookupC]
  | cons e m ih =>
    simp only [List.any_cons, Bool.or_eq_false_iff] at h
    rw [lookupC_cons_ne _ _ _ (by simpa using h.1)]
    exact ih h.2

theorem lookupC_append_single (m : List (String × String)) (k v : String)
    (h : lookupC m k = none) :
    lookupC (m ++ [(k, v)]) k = some v := by
  induction m with
  | nil => simp [lookupC]
  | cons e m ih =>
    by_cases he : e.1 = k
    · rw [lookupC_cons_self _ _ _ he] at h
      exact absurd h (by simp)
    · rw [lookupC_cons_ne _ _ _ he] at h
      rw [List.cons_append, lookupC_cons_ne _ _ _ he]
      exact ih h

theorem lookupC_insertC_self (m : List (String × String)) (k v : String) :
    lookupC (insertC m k v) k = some v := by
  unfold insertC
  by_cases h : m.any (fun e => e.1 == k) = true
  · simpa [h] using lookupC_map_replace m k v h
  · have h' := lookupC_none_of_not_any m k (by rwa [Bool.not_eq_true] at h)
    simp only [h, if_false]
    exact lookupC_append_single m k v h'

theorem lookupC_map_replace_ne (m : List (String × String)) (k v k' : String) (h : k' ≠ k) :
    lookupC (m.map (fun e => if e.1 == k then (k, v) else e)) k' = lookupC m k' := by
  induction m with
  | nil => simp
  | cons e m ih =>
    by_cases he : e.1 = k
    · rw [List.map_cons, if_pos (by simpa using he),
        lookupC_cons_ne (k, v) _ _ (Ne.symm h), lookupC_cons_ne e _ _ (by simp [he, Ne.symm h])]
      exact ih
    · by_cases he' : e.1 = k'
      · rw [List.map_cons, if_neg (by simpa using he), lookupC_cons_self _ _ _ he',
          lookupC_cons_self _ _ _ he']
      · rw [List.map_cons, if_neg (by simpa using he), lookupC_cons_ne _ _ _ he',
          lookupC_cons_ne _ _ _ he']
        exact ih

theorem lookupC_append_single_ne (m : List (String × String)) (k v k' : String) (h : k' ≠ k) :
    lookupC (m ++ [(k, v)]) k' = lookupC m k' := by
  induction m with
  | nil => simp [lookupC, Ne.symm h]
  | cons e m ih =>
    by_cases he' : e.1 = k'
    · rw [List.cons_append, lookupC_cons_self _ _ _ he', lookupC_cons_self _ _ _ he']
    · rw [List.cons_append, lookupC_cons_ne _ _ _ he', lookupC_cons_ne _ _ _ he']
      exact ih

theorem lookupC_insertC_ne (m : List (String × String)) (k v k' : String) (h : k' ≠ k) :
    lookupC (insertC m k v) k' = lookupC m k' := by
  unfold insertC
  by_cases hm : m.any (fun e => e.1 == k) = true
  · simpa [hm] using lookupC_map_replace_ne m k v k' h
  · simp only [hm, if_false]
    exact lookupC_append_single_ne m k v k' h

theorem lookupC_eraseC_self (m : List (String × String)) (k : String) :
    lookupC (eraseC m k) k = none := by
  induction m with
  | nil => simp [eraseC, lookupC]
  | cons e m ih =>
    by_cases he : e.1 = k
    · rw [show eraseC (e :: m) k = eraseC m k by simp [eraseC, List.filter_cons, he]]
      exact ih
    · rw [show eraseC (e :: m) k = e :: eraseC m k by simp [eraseC, List.filter_cons, he],
        lookupC_cons_ne _ _ _ he]
      exact ih

theorem lookupC_eraseC_ne (m : List (String × String)) (k k' : String) (h : k' ≠ k) :
    lookupC (eraseC m k) k' = lookupC m k' := by
  induction m with
  | nil => simp [eraseC]
  | cons e m ih =>
    by_cases he : e.1 = k
    · rw [show eraseC (e :: m) k = eraseC m k by simp [eraseC, List.filter_cons, he],
        lookupC_cons_ne _ _ _ (by simp [he, Ne.symm h])]
      exact ih
    · by_cases he' : e.1 = k'
      · rw [show eraseC (e :: m) k = e :: eraseC m k by simp [eraseC, List.filter_cons, he],
          lookupC_cons_self _ _ _ he', lookupC_cons_self _ _ _ he']
      · rw [show eraseC (e :: m) k = e :: eraseC m k by simp [eraseC, List.filter_cons, he],
          lookupC_cons_ne _ _ _ he', lookupC_cons_ne _ _ _ he']
        exact ih


/-! ## Claim theorems: CRUD containment, reconciler -/

/-- C1 — The `startsWith`-prefix containment check is bypassable: the path
`../workspace2/secret.txt` resolves to a sibling directory outside the
workspace root, yet both the read and the rename handler proceed to storage
on it, contradicting "if the resolved full path falls outside the workspace
root then the operation returns an access-denied rejection and performs no
storage call". -/
theorem containment_prefix_bypass :
    readRoute "../workspace2/secret.txt" = .storage ["/srv/server/workspace2/secret.txt"]
    ∧ withinRoot WORKSPACE_DIR "/srv/server/workspace2/secret.txt" = false
    ∧ renameRoute "ok.txt" "../workspace2/stolen.txt"
        = .storage ["/srv/server/workspace/ok.txt", "/srv/server/workspace2/stolen.txt"]
    ∧ withinRoot WORKSPACE_DIR "/srv/server/workspace2/stolen.txt" = false
    ∧ readRoute "../outside.txt" = .accessDenied := by
  refine ⟨by decide, by decide, by decide, by decide, by decide⟩

/-- C2 — `deleteFile` on the state whose only open file `a` is active:
the stale render value `openFiles[0]` is the deleted path itself, so
`activeFile` remains `a` while `openFiles` becomes empty, violating
`activeFile ∈ openFiles ∪ {none}`. -/
theorem deleteFile_stale_active :
    (deleteFile stubSrv "a" oneOpenState).openFiles = []
    ∧ (deleteFile stubSrv "a" oneOpenState).activeFile = some "a"
    ∧ oneOpenState.activeFile = some "a" ∧ oneOpenState.openFiles = ["a"] := by
  refine ⟨by decide, by decide, by decide, by decide⟩

/-- C9 — Inbound protocol: `ping` gets exactly one `pong` with the server
timestamp, `subscribe` gets `subscribed` echoing the channel, any other
recognized-format type gets no reply, and an unparseable frame is swallowed;
in every case the client set is untouched (no crash, no close). -/
theorem inbound_protocol (now : Nat) (ch t : Option String) (clients : List Session) :
    handleMessage now (some .ping) clients = ([.pong now], clients)
    ∧ handleMessage now (some (.subscribe ch)) clients = ([.subscribed ch], clients)
    ∧ handleMessage now (some (.other t)) clients = ([], clients)
    ∧ handleMessage now none clients = ([], clients) :=
  ⟨rfl, rfl, rfl, rfl⟩

/-- Operation `loadFile` only touches `fileContents`, not `openFiles`. -/
theorem loadFile_openFiles (srv : ServerApi) (p : String) (s : ReconcilerState) :
    (loadFile srv p s).openFiles = s.openFiles := by
  unfold loadFile
  cases srv.readFile p <;> rfl

/-- Operation `loadFile` only touches `fileContents`, not `activeFile`. -/
theorem loadFile_activeFile (srv : ServerApi) (p : String) (s : ReconcilerState) :
    (loadFile srv p s).activeFile = s.activeFile := by
  unfold loadFile
  cases srv.readFile p <;> rfl

/-- C7 — The installed `onmessage` handler never re-fetches on
`file:changed`: its mount-only closure reads the initial, empty
`fileContents` of the mount render, so the truthiness guard is falsy for
every path and every current state — even when the path is present with
truthy content in the current cache and the server holds fresh content —
while `file:added` and `file:deleted` do replace the whole tree.  This
contradicts the claim (and the handler's own reload-if-open comment) that a
`changed` event for a cached path causes a re-fetch that overwrites the
entry. -/
theorem changed_never_refetches :
    (∀ srv : ServerApi, ∀ p : String, ∀ s : ReconcilerState,
        installedWsHandler srv ⟨.changed, p⟩ s = s)
    ∧ installedWsHandler freshSrv ⟨.changed, "a"⟩ truthyCacheState = truthyCacheState
    ∧ lookupC truthyCacheState.fileContents "a" = some "cached"
    ∧ jsTruthy (lookupC truthyCacheState.fileContents "a") = true
    ∧ freshSrv.readFile "a" = some "fresh content"
    ∧ (∀ srv : ServerApi, ∀ q : String, ∀ s : ReconcilerState,
        installedWsHandler srv ⟨.added, q⟩ s = { s with fileTree := srv.tree })
    ∧ (∀ srv : ServerApi, ∀ q : String, ∀ s : ReconcilerState,
        installedWsHandler srv ⟨.deleted, q⟩ s = { s with fileTree := srv.tree }) := by
  refine ⟨fun srv p s => rfl, rfl, rfl, by decide, rfl,
    fun srv q s => rfl, fun srv q s => rfl⟩

/-- C8 counterexample — renaming `a` (cached as the empty string) to `b`
does not move the cache entry: the remap is guarded by truthiness of
`fileContents[oldPath]`, so the entry stays under `a` and `b` has no cached
content, contradicting "for every cached content value, including the empty
string". -/
theorem rename_empty_content_cex :
    lookupC emptyCacheState.fileContents "a" = some ""
    ∧ lookupC (renameFile stubSrv "a" "b" emptyCacheState).fileContents "b" = none
    ∧ lookupC (renameFile stubSrv "a" "b" emptyCacheState).fileContents "a" = some "" := by
  refine ⟨rfl, rfl, rfl⟩

/-- C8 amended — for distinct paths and a non-empty cached content,
`renameFile` moves the cache entry from old to new preserving the content,
replaces old with new in `openFiles`, and reassigns `activeFile` when it
was the old path. -/
theorem rename_amended (srv : ServerApi) (s : ReconcilerState) (oldP newP c : String)
    (hne : oldP ≠ newP)
    (hcache : lookupC s.fileContents oldP = some c)
    (hc : c ≠ "") :
    lookupC (renameFile srv oldP newP s).fileContents newP = some c
    ∧ lookupC (renameFile srv oldP newP s).fileContents oldP = none
    ∧ (renameFile srv oldP newP s).openFiles
        = s.openFiles.map (fun f => if f = oldP then newP else f)
    ∧ (renameFile srv oldP newP s).activeFile
        = (if s.activeFile = some oldP then some newP else s.activeFile) := by
  have htr : jsTruthy (lookupC s.fileContents oldP) = true := by
    rw [hcache]
    simpa [jsTruthy] using hc
  have htr' : jsTruthy (some c) = true := by simpa [jsTruthy] using hc
  have hcont : (renameFile srv oldP newP s).fileContents
      = eraseC (insertC s.fileContents newP c) oldP := by
    unfold renameFile
    simp only [hcache, Option.getD_some, htr', if_true]
  refine ⟨?_, ?_, rfl, rfl⟩
  · rw [hcont, lookupC_eraseC_ne _ _ _ (Ne.symm hne), lookupC_insertC_self]
  · rw [hcont, lookupC_eraseC_self]

/-- C8 amended, witness at a concrete state. -/
theorem rename_amended_witness :
    lookupC (renameFile stubSrv "a" "b" twoOpenState).fileContents "b" = some "x"
    ∧ lookupC (renameFile stubSrv "a" "b" twoOpenState).fileContents "a" = none :=
  ⟨(rename_amended stubSrv twoOpenState "a" "b" "x" (by decide) rfl (by decide)).1,
   (rename_amended stubSrv twoOpenState "a" "b" "x" (by decide) rfl (by decide)).2.1⟩


/-- C4 counterexample — with `a` and `b` open and `a` active, opening `c`
and immediately closing it leaves `openFiles` intact but moves the active
file to `b` (the entry before the closed one), not back to `a`. -/
theorem open_close_cex :
    twoOpenState.activeFile = some "a"
    ∧ (closeFile "c" (openFile stubSrv "c" twoOpenState)).openFiles = twoOpenState.openFiles
    ∧ (closeFile "c" (openFile stubSrv "c" twoOpenState)).activeFile = some "b"
    ∧ some "b" ≠ twoOpenState.activeFile := by
  refine ⟨by decide, by decide, by decide, by decide⟩

/-- Filtering out an element that is not in the list is the identity. -/
theorem filter_ne_eq_self (l : List String) (p : String) (hp : p ∉ l) :
    l.filter (fun f => f ≠ p) = l := by
  apply List.filter_eq_self.mpr
  intro a ha
  simp only [ne_eq, decide_eq_true_eq]
  exact fun he => hp (he ▸ ha)

/-- JavaScript `indexOf` finds a freshly appended element at the old length. -/
theorem jsIndexOf_append_self (l : List String) (p : String) (hp : p ∉ l) :
    jsIndexOf (l ++ [p]) p = (l.length : Int) := by
  have hnone : l.findIdx? (· == p) = none := by
    rw [List.findIdx?_eq_none_iff]
    intro a ha
    simp only [beq_eq_false_iff_ne, ne_eq]
    exact fun he => hp (he ▸ ha)
  unfold jsIndexOf
  rw [List.findIdx?_append, hnone]
  simp [List.findIdx?]

/-- JavaScript indexing just past the end of the appended list. -/
theorem jsGet_append_past (l : List String) (p : String) :
    jsGet (l ++ [p]) ((l.length : Int) + 1) = none := by
  unfold jsGet
  rw [if_pos (by omega)]
  apply List.getElem?_eq_none
  simp

/-- JavaScript indexing one before the appended element: the last element
of the original list (or `undefined` when there is none). -/
theorem jsGet_append_before (l : List String) (p : String) :
    jsGet (l ++ [p]) ((l.length : Int) - 1) = l.getLast? := by
  cases l with
  | nil => simp [jsGet]
  | cons c l =>
    unfold jsGet
    rw [if_pos (by simp)]
    have hlen : ((((c :: l).length : Int)) - 1).toNat = l.length := by
      simp
    rw [hlen]
    rw [List.getElem?_append_left (by simp)]
    rw [List.getLast?_eq_getElem?]
    simp

/-- Operation `openFile` on a path that is not yet open: append and activate. -/
theorem openFile_not_open (srv : ServerApi) (s : ReconcilerState) (p : String)
    (hp : p ∉ s.openFiles) :
    (openFile srv p s).openFiles = s.openFiles ++ [p]
    ∧ (openFile srv p s).activeFile = some p := by
  have hc : s.openFiles.contains p = false := by simpa using hp
  unfold openFile
  simp only [hc, Bool.false_eq_true, if_false]
  cases htr : jsTruthy (lookupC s.fileContents p) with
  | true => exact ⟨rfl, rfl⟩
  | false =>
    rw [if_neg (by simp)]
    exact ⟨loadFile_openFiles _ _ _, loadFile_activeFile _ _ _⟩

/-- C4 amended — opening a path that was not already open and immediately
closing it restores `openFiles` exactly, but sets `activeFile` to the last
entry of the prior `openFiles` (or none when there was none) instead of
restoring the prior active file. (Paths are assumed non-empty, as every
workspace path is; an empty string would be skipped by the `||` chain.) -/
theorem open_close_amended (srv : ServerApi) (s : ReconcilerState) (p : String)
    (hp : p ∉ s.openFiles) (hne : "" ∉ s.openFiles) :
    (closeFile p (openFile srv p s)).openFiles = s.openFiles
    ∧ (closeFile p (openFile srv p s)).activeFile = s.openFiles.getLast? := by
  obtain ⟨hopen, hact⟩ := openFile_not_open srv s p hp
  unfold closeFile
  rw [hopen, hact, if_pos rfl]
  simp only
  constructor
  · rw [List.filter_append, filter_ne_eq_self _ _ hp]
    simp
  · rw [jsIndexOf_append_self _ _ hp, jsGet_append_past, jsGet_append_before]
    cases hl : s.openFiles.getLast? with
    | none => rfl
    | some x =>
      have hx : x ∈ s.openFiles := List.mem_of_getLast?_eq_some hl
      have hxe : x ≠ "" := fun he => hne (he ▸ hx)
      simp [jsOr, jsTruthy, hxe]

/-- C4 amended, witness at a concrete state. -/
theorem open_close_amended_witness :
    (closeFile "c" (openFile stubSrv "c" twoOpenState)).openFiles = twoOpenState.openFiles
    ∧ (closeFile "c" (openFile stubSrv "c" twoOpenState)).activeFile
        = twoOpenState.openFiles.getLast? :=
  open_close_amended stubSrv twoOpenState "c" (by decide) (by decide)


/-- C3 — Broadcast isolation: every open session receives the frame no
matter what state any other session is in; a session whose transport is not
open is simply skipped (no exception reaches the loop, no other session is
affected); and once the failing session's `error` handler has removed it
from the client set, no session with its id remains in any later broadcast. -/
theorem broadcast_isolation (clients : List Session) (msg : String) (sid : Nat) :
    (∀ c ∈ clients, c.readyState = 1 → { c with inbox := c.inbox ++ [msg] } ∈ broadcast msg clients)
    ∧ (∀ c ∈ clients, c.readyState ≠ 1 → c ∈ broadcast msg clients)
    ∧ (∀ c ∈ broadcast msg (onSocketError sid clients), c.id ≠ sid) := by
  refine ⟨?_, ?_, ?_⟩
  · intro c hc h1
    have : { c with inbox := c.inbox ++ [msg] }
        = (fun c => if c.readyState == 1 then { c with inbox := c.inbox ++ [msg] } else c) c := by
      simp [h1]
    rw [this]
    exact List.mem_map_of_mem _ hc
  · intro c hc h1
    have hb : (c.readyState == 1) = false := by simpa using h1
    have heq : c = (fun c => if c.readyState == 1 then { c with inbox := c.inbox ++ [msg] } else c) c := by
      simp [hb]
    have hmem := List.mem_map_of_mem
      (fun c => if c.readyState == 1 then { c with inbox := c.inbox ++ [msg] } else c) hc
    rw [← heq] at hmem
    exact hmem
  · intro c hc
    rcases List.mem_map.mp hc with ⟨d, hd, hdc⟩
    have hid : d.id ≠ sid := by
      have := List.mem_filter.mp hd
      simpa using this.2
    have : c.id = d.id := by
      cases hb : d.readyState == 1 <;> simp [hb] at hdc <;> rw [← hdc]
    rw [this]
    exact hid

/-- C3, witness at a concrete client set: session 1 (open) receives the
frame although session 2 is closed; session 2 is delivered nothing; and
after its `error` handler runs, no session with id 2 is broadcast to. -/
theorem broadcast_isolation_witness :
    ({ id := 1, readyState := 1, inbox := ["ev"] } : Session) ∈ broadcast "ev" demoClients
    ∧ ({ id := 2, readyState := 3, inbox := [] } : Session) ∈ broadcast "ev" demoClients
    ∧ (∀ c ∈ broadcast "ev" (onSocketError 2 demoClients), c.id ≠ 2) :=
  ⟨(broadcast_isolation demoClients "ev" 2).1 ⟨1, 1, []⟩ (by decide) rfl,
   (broadcast_isolation demoClients "ev" 2).2.1 ⟨2, 3, []⟩ (by decide) (by decide),
   (broadcast_isolation demoClients "ev" 2).2.2⟩


/-! ## Watcher lemmas: the ignore regex suppresses hidden components -/

/-- Running the automaton over an appended list: a match is found in the
first part, or in the second part starting from the carried-over state. -/
theorem reRun_append (xs : List Char) :
    ∀ (st : ReState) (ys : List Char),
      reRun st (xs ++ ys) = (reRun st xs || reRun (reEnd st xs) ys) := by
  induction xs with
  | nil => intro st ys; simp [reRun, reEnd]
  | cons c cs ih =>
    intro st ys
    show (reMatchChar st c || reRun (reNext st c) (cs ++ ys))
        = ((reMatchChar st c || reRun (reNext st c) cs) || reRun (reEnd st (c :: cs)) ys)
    rw [ih (reNext st c) ys]
    have hend : reEnd st (c :: cs) = reEnd (reNext st c) cs := rfl
    rw [hend, Bool.or_assoc]

/-- A separator always resets the automaton to the boundary state. -/
theorem reNext_slash (st : ReState) : reNext st '/' = .q0 := by
  unfold reNext
  simp

/-- After any list ending in `/`, the automaton is at a boundary. -/
theorem reEnd_concat_slash (st : ReState) (xs : List Char) :
    reEnd st (xs ++ ['/']) = .q0 := by
  unfold reEnd
  rw [List.foldl_append]
  simpa using reNext_slash _

/-- A name starting with `.` followed by a non-line-terminator character is
matched from the boundary state. -/
theorem reRun_dot_name (c : Char) (rest : List Char) (hc : isLineTerm c = false) :
    reRun .q0 ('.' :: c :: rest) = true := by
  have h1 : reMatchChar .q0 '.' = false := by decide
  have h2 : reNext .q0 '.' = .qdot := by decide
  have h3 : reMatchChar .qdot c = true := by
    unfold reMatchChar
    simp [hc]
  simp [reRun, h1, h2, h3]

/-- Function `dropWhile` returns the empty list or a list whose head fails the
predicate. -/
theorem dropWhile_shape (q : Char → Bool) (l : List Char) :
    l.dropWhile q = [] ∨ ∃ c rest, l.dropWhile q = c :: rest ∧ q c = false := by
  induction l with
  | nil => exact Or.inl rfl
  | cons c cs ih =>
    by_cases hq : q c
    · rw [List.dropWhile_cons_of_pos hq]
      exact ih
    · exact Or.inr ⟨c, cs, List.dropWhile_cons_of_neg hq, by simpa using hq⟩

/-- Every character list splits as its directory part (empty or ending in
`/`) followed by its base name. -/
theorem baseName_decomposition (l : List Char) :
    l = (l.reverse.dropWhile (fun c => c ≠ '/')).reverse ++ baseNameChars l
    ∧ ((l.reverse.dropWhile (fun c => c ≠ '/')).reverse = []
       ∨ ∃ xs, (l.reverse.dropWhile (fun c => c ≠ '/')).reverse = xs ++ ['/']) := by
  constructor
  · conv_lhs => rw [← List.reverse_reverse l, ← List.takeWhile_append_dropWhile
      (p := fun c => c ≠ '/') (l := l.reverse)]
    rw [List.reverse_append]
    rfl
  · rcases dropWhile_shape (fun c => c ≠ '/') l.reverse with hd | ⟨c, rest, hd, hc⟩
    · rw [hd]
      exact Or.inl rfl
    · right
      have hc' : c = '/' := by simpa using hc
      subst hc'
      exact ⟨rest.reverse, by rw [hd]; simp⟩

/-- Shared core of the watcher claims: no emitted event's path has a base
name that the ignore regex counts as hidden (a leading `.` followed by a
character) — such a path is matched by the regex on the full watched path
and filtered before the handler runs. -/
theorem watcher_no_hidden_base (root : String) (notes : List RawNote) :
    ∀ e ∈ watcherEvents root notes, dotLeadingName (baseNameStr e.path) = false := by
  intro e he
  rcases List.mem_map.mp he with ⟨n, hn, rfl⟩
  have hacc : watcherAccepts root n = true := (List.mem_filter.mp hn).2
  have hre : hiddenRe (root ++ "/" ++ n.path) = false := by
    unfold watcherAccepts at hacc
    simp only [Bool.and_eq_true, Bool.not_eq_true'] at hacc
    exact hacc.2
  by_contra hdot
  rw [Bool.not_eq_false] at hdot
  obtain ⟨hsplit, hpre⟩ := baseName_decomposition n.path.data
  have hbase : ∃ c rest, baseNameChars n.path.data = '.' :: c :: rest ∧ isLineTerm c = false := by
    unfold dotLeadingName at hdot
    split at hdot
    next c rest heq =>
      exact ⟨c, rest, heq, by simpa using hdot⟩
    next =>
      exact absurd hdot (by simp)
  obtain ⟨c, rest, hbeq, hcterm⟩ := hbase
  have hfull : (root ++ "/" ++ n.path).data
      = (root.data ++ ['/'] ++ (n.path.data.reverse.dropWhile (fun c => c ≠ '/')).reverse)
        ++ ('.' :: c :: rest) := by
    rw [String.data_append, String.data_append]
    conv_lhs => rw [hsplit]
    rw [hbeq]
    simp
  have hend : reEnd .q0 (root.data ++ ['/'] ++ (n.path.data.reverse.dropWhile (fun c => c ≠ '/')).reverse) = .q0 := by
    rcases hpre with hpre | ⟨xs, hpre⟩
    · rw [hpre, List.append_nil]
      exact reEnd_concat_slash _ _
    · rw [hpre, ← List.append_assoc]
      exact reEnd_concat_slash _ _
  have : hiddenRe (root ++ "/" ++ n.path) = true := by
    unfold hiddenRe
    rw [hfull, reRun_append, hend, reRun_dot_name c rest hcterm]
    simp
  rw [this] at hre
  exact absurd hre (by simp)

/-- C6 counterexample — a non-initial create notification for
`.git/config`, an entry whose own name `config` does not begin with `.`,
produces no `ChangeEvent` at all: the ignore regex matches the hidden
ancestor directory, so "each underlying notification maps to exactly one
ChangeEvent" fails even for non-hidden-named, non-initial entries. -/
theorem watcher_hidden_dir_cex :
    watcherEvents "/srv/server/workspace" [⟨.add, ".git/config", false⟩] = []
    ∧ baseNameStr ".git/config" = "config"
    ∧ startsDot (baseNameStr ".git/config") = false
    ∧ (RawNote.mk .add ".git/config" false).initial = false := by
  refine ⟨by decide, by decide, by decide, rfl⟩

/-- C6 amended — the watcher emits no event whose path's base name begins
with `.` followed by another character (in fact no event for any path with
such a hidden component, including entries beneath hidden directories);
notifications from the initial scan contribute nothing; and each surviving
notification maps to exactly one `ChangeEvent` of the corresponding kind
(`add → added`, `change → changed`, `unlink → deleted`). -/
theorem watcher_events_amended (root : String) (notes : List RawNote) :
    (∀ e ∈ watcherEvents root notes, dotLeadingName (baseNameStr e.path) = false)
    ∧ watcherEvents root notes = watcherEvents root (notes.filter (fun n => !n.initial))
    ∧ watcherEvents root notes
        = (notes.filter (fun n => !n.initial && !hiddenRe (root ++ "/" ++ n.path))).map
            (fun n => ⟨mapKind n.kind, n.path⟩) := by
  refine ⟨watcher_no_hidden_base root notes, ?_, rfl⟩
  unfold watcherEvents
  rw [List.filter_filter]
  congr 1
  apply List.filter_congr
  intro n _
  unfold watcherAccepts
  cases n.initial <;> cases hiddenRe (root ++ "/" ++ n.path) <;> rfl

/-- C6 amended, witness: a plain non-initial notification for `src/app.js`
survives to exactly one `added` event, whose base name is not hidden. -/
theorem watcher_events_amended_witness :
    dotLeadingName (baseNameStr (ChangeEvent.mk .added "src/app.js").path) = false :=
  (watcher_events_amended "/srv/server/workspace" [⟨.add, "src/app.js", false⟩]).1
    ⟨.added, "src/app.js"⟩ (by decide)


/-! ## Tree listing lemmas -/

/-- Converted entries keep their storage names. -/
theorem wname_convEntry (b : String) (e : FSEntry) : wname (convEntry b e) = fsName e := by
  cases e <;> rfl

/-- Conversion of a listing preserves the name sequence. -/
theorem convList_names (b : String) (es : List FSEntry) :
    (convList b es).map wname = es.map fsName := by
  induction es with
  | nil => rfl
  | cons e es ih =>
    show wname (convEntry b e) :: (convList b es).map wname = fsName e :: es.map fsName
    rw [wname_convEntry, ih]

/-- C10 — `buildFileTree` applies no hidden-entry filter: any entry name
present in a directory listing, in particular one beginning with `.`,
appears among the names of the returned level; yet the watcher never emits
an event whose path has a hidden (dot-led) base name. -/
theorem hidden_listed_unwatched (b : String) (es : List FSEntry) (nm : String)
    (hmem : nm ∈ es.map fsName) (_hdot : startsDot nm = true) :
    nm ∈ (buildFileTree b es).map wname
    ∧ ∀ root notes, ∀ e ∈ watcherEvents root notes,
        dotLeadingName (baseNameStr e.path) = false := by
  constructor
  · have hperm : List.Perm (List.insertionSort entryLeR (convList b es)) (convList b es) :=
      List.perm_insertionSort _ _
    have : nm ∈ (convList b es).map wname := by
      rw [convList_names]
      exact hmem
    exact ((hperm.map wname).mem_iff).mpr this
  · intro root notes
    exact watcher_no_hidden_base root notes

/-- C10, witness: the hidden entry `.env` is listed by the tree builder. -/
theorem hidden_listed_unwatched_witness :
    ".env" ∈ (buildFileTree "" [.file ".env" 1 0, .file "app.js" 2 0]).map wname :=
  (hidden_listed_unwatched "" [.file ".env" 1 0, .file "app.js" 2 0] ".env"
    (by decide) (by decide)).1


/-! ## Comparator order facts and tree ordering -/

/-- Lexicographic `≤` on weight lists is total. -/
theorem natListLe_total : ∀ x y : List Nat, natListLe x y = true ∨ natListLe y x = true := by
  intro x
  induction x with
  | nil => intro y; exact Or.inl rfl
  | cons a as ih =>
    intro y
    cases y with
    | nil => exact Or.inr rfl
    | cons b bs =>
      by_cases hab : a < b
      · left
        simp [natListLe, hab]
      · by_cases hba : b < a
        · right
          simp [natListLe, hba]
        · have hbn : ¬ b < a := hba
          rcases ih bs with h | h
          · left
            simp [natListLe, hab, hbn, h]
          · right
            simp [natListLe, hab, hbn, h]

/-- Lexicographic `≤` on weight lists is transitive. -/
theorem natListLe_trans : ∀ x y z : List Nat,
    natListLe x y = true → natListLe y z = true → natListLe x z = true := by
  intro x
  induction x with
  | nil => intro y z _ _; rfl
  | cons a as ih =>
    intro y z hxy hyz
    cases y with
    | nil => simp [natListLe] at hxy
    | cons b bs =>
      cases z with
      | nil => simp [natListLe] at hyz
      | cons c cs =>
        simp only [natListLe] at hxy hyz ⊢
        by_cases hab : a < b
        · have hbc : b ≤ c := by
            by_cases h1 : b < c
            · omega
            · by_cases h2 : c < b
              · simp [h1, h2] at hyz
              · omega
          have hac : a < c := by omega
          simp [hac]
        · by_cases hba : b < a
          · simp [hab, hba] at hxy
          · have hab' : a = b := by omega
            subst hab'
            by_cases hbc : a < c
            · simp [hbc]
            · by_cases hcb : c < a
              · rw [if_neg hbc, if_pos hcb] at hyz
                exact absurd hyz (by simp)
              · rw [if_neg hbc, if_neg hcb] at hyz
                rw [if_neg hab, if_neg hba] at hxy
                rw [if_neg hbc, if_neg hcb]
                exact ih bs cs hxy hyz

/-- The comparator relation of `buildFileTree` is total. -/
theorem entryLe_total (a b : WorkspaceEntry) : entryLe a b = true ∨ entryLe b a = true := by
  unfold entryLe
  cases ha : wisDir a <;> cases hb : wisDir b <;> simp
  · exact natListLe_total _ _
  · exact natListLe_total _ _

/-- The comparator relation of `buildFileTree` is transitive. -/
theorem entryLe_trans (a b c : WorkspaceEntry) (hab : entryLe a b = true)
    (hbc : entryLe b c = true) : entryLe a c = true := by
  unfold entryLe at hab hbc ⊢
  cases ha : wisDir a <;> cases hb : wisDir b <;> cases hc : wisDir c <;>
    rw [ha, hb] at hab <;> rw [hb, hc] at hbc <;> simp_all
  · exact natListLe_trans _ _ _ hab hbc
  · exact natListLe_trans _ _ _ hab hbc

/-- A pairwise-ordered level whose entries are recursively ordered passes
the full check. -/
theorem levelSortedB_of_pairwise : ∀ (l : List WorkspaceEntry),
    List.Pairwise entryLeR l → (∀ e ∈ l, entrySortedB e = true) → levelSortedB l = true := by
  intro l
  induction l with
  | nil => intro _ _; rfl
  | cons e es ih =>
    intro hp he
    cases es with
    | nil =>
      show entrySortedB e = true
      exact he e (by simp)
    | cons b rest =>
      show (entryLe e b && entrySortedB e && levelSortedB (b :: rest)) = true
      have h1 : entryLe e b = true := (List.pairwise_cons.mp hp).1 b (by simp)
      have h2 : entrySortedB e = true := he e (by simp)
      have h3 : levelSortedB (b :: rest) = true :=
        ih (List.pairwise_cons.mp hp).2 (fun d hd => he d (by simp [hd]))
      rw [h1, h2, h3]
      rfl

/-- Every converted entry comes from a storage entry of the listing. -/
theorem convList_mem (b : String) : ∀ (es : List FSEntry),
    ∀ e ∈ convList b es, ∃ x ∈ es, e = convEntry b x := by
  intro es
  induction es with
  | nil => intro e he; exact absurd he (by simp [convList])
  | cons x xs ih =>
    intro e he
    rcases (by exact he : e ∈ convEntry b x :: convList b xs) with _ | ⟨_, hmem⟩
    · exact ⟨x, by simp, rfl⟩
    · rcases ih e hmem with ⟨y, hy, hey⟩
      exact ⟨y, by simp [hy], hey⟩

/-- Fuel-indexed form of the ordering invariant, by strong induction on the
size of the listing. -/
theorem build_sorted_fuel : ∀ (n : Nat) (b : String) (es : List FSEntry),
    sizeOf es ≤ n → levelSortedB (buildFileTree b es) = true := by
  intro n
  induction n with
  | zero =>
    intro b es h
    exfalso
    cases es <;> simp at h
  | succ n ih =>
    intro b es h
    haveI : IsTotal WorkspaceEntry entryLeR := ⟨fun a b => entryLe_total a b⟩
    haveI : IsTrans WorkspaceEntry entryLeR := ⟨fun a b c => entryLe_trans a b c⟩
    apply levelSortedB_of_pairwise
    · exact List.sorted_insertionSort entryLeR (convList b es)
    · intro e he
      have hmem : e ∈ convList b es :=
        ((List.perm_insertionSort entryLeR (convList b es)).mem_iff).mp he
      rcases convList_mem b es e hmem with ⟨x, hx, rfl⟩
      cases x with
      | file nm sz mt => rfl
      | dir nm ch =>
        show levelSortedB (buildFileTree (joinRel b nm) ch) = true
        apply ih
        have h1 : sizeOf (FSEntry.dir nm ch) < sizeOf es := List.sizeOf_lt_of_mem hx
        have h2 : sizeOf ch < sizeOf (FSEntry.dir nm ch) := by
          simp
        omega

/-- C5 counterexample — a directory with files `B` and `a`: the listing
orders them `a, B` (locale collation), while case-sensitive lexicographic
comparison orders `B` before `a`, so the siblings are not sorted by
case-sensitive lexicographic name order. -/
theorem tree_order_cex :
    (buildFileTree "" [.file "B" 1 0, .file "a" 2 0]).map wname = ["a", "B"]
    ∧ entryLeSpec (.file "a" "a" 2 0) (.file "B" "B" 1 0) = false
    ∧ codePointLe "B".data "a".data = true
    ∧ buildFileTree "" [.file "B" 1 0, .file "a" 2 0]
        = [.file "a" "a" 2 0, .file "B" "B" 1 0] := by
  refine ⟨by decide, by decide, by decide, by rfl⟩

/-- C5 amended — the listing is a pure function of the storage state (one
fixed output per input, so repeated calls cannot reorder siblings), and at
every level the entries are comparator-ordered: directories precede files
and same-type siblings are ordered by the default-locale collation
(`localeCompare`: case-insensitive primary pass, lower case before upper
case on ties), which is not case-sensitive code-point order. -/
theorem tree_ordering_amended (b : String) (es : List FSEntry) :
    List.Pairwise entryLeR (buildFileTree b es)
    ∧ levelSortedB (buildFileTree b es) = true := by
  constructor
  · haveI : IsTotal WorkspaceEntry entryLeR := ⟨fun a b => entryLe_total a b⟩
    haveI : IsTrans WorkspaceEntry entryLeR := ⟨fun a b c => entryLe_trans a b c⟩
    exact List.sorted_insertionSort entryLeR (convList b es)
  · exact build_sorted_fuel (sizeOf es) b es (Nat.le_refl _)

end Fre
